import Mathlib

/-!
Verification of the Reversi/Othello board engine (src/game/board.rs,
src/game/player.rs) against its natural-language specification.

The engine is shallowly embedded: the 8x8 grid is a structure over
Fin 8 → Fin 8 → Cell, coordinates are Int (the source uses i32), and the
two internal while-loop walks (the directional capture test and the flip
walk) are embedded as fuel-indexed recursions returning Option, where
none means the loop has not terminated within the given fuel.  For every
direction actually used by the engine (the 8 nonzero unit/diagonal
steps) fuel 9 is proved sufficient — 8 in-range cells plus the final
bounds check — so the Bool/Board-valued wrappers below agree with the
Rust loops on every input the engine produces.
-/

namespace Osero

/-- Player enum from src/game/player.rs: Black or White. -/
inductive Player where
  | Black : Player
  | White : Player
deriving DecidableEq

/-- Player::opponent from src/game/player.rs. -/
def Player.opponent : Player → Player
  | Player.Black => Player.White
  | Player.White => Player.Black

/-- Cell enum from src/game/board.rs: Empty or Occupied(Player). -/
inductive Cell where
  | Empty : Cell
  | Occupied : Player → Cell
deriving DecidableEq

/-- Board struct from src/game/board.rs: an 8x8 grid of cells. -/
structure Board where
  cells : Fin 8 → Fin 8 → Cell

instance : DecidableEq Board := fun a b =>
  decidable_of_iff (a.cells = b.cells) (by cases a; cases b; simp)

/-- The in-range predicate used by every bounds check in the source:
0 <= r < 8 and 0 <= c < 8. -/
abbrev inRange (r c : Int) : Prop := 0 ≤ r ∧ r < 8 ∧ 0 ≤ c ∧ c < 8

/-- Write a single cell of the grid (the Rust assignment
self.cells[i][j] = v). -/
def Board.set (b : Board) (i0 j0 : Fin 8) (v : Cell) : Board :=
  ⟨fun i j => if i = i0 ∧ j = j0 then v else b.cells i j⟩

/-- Bounds-guarded read of the grid at Int coordinates; out-of-range
reads never occur in the engine (every access sits behind the source's
range check), so the Empty default is never observable there. -/
def Board.get (b : Board) (r c : Int) : Cell :=
  if h : inRange r c then b.cells ⟨r.toNat, by omega⟩ ⟨c.toNat, by omega⟩
  else Cell.Empty

/-- Board::new from src/game/board.rs: the all-Empty grid with the four
center stones placed. -/
def Board.new : Board :=
  ((((⟨fun _ _ => Cell.Empty⟩ : Board).set 3 3 (Cell.Occupied Player.White)).set
      3 4 (Cell.Occupied Player.Black)).set
      4 3 (Cell.Occupied Player.Black)).set
      4 4 (Cell.Occupied Player.White)

/-- The while loop of Board::can_flip_in_direction, indexed by fuel:
one unit of fuel per loop iteration, none on exhaustion.  The loop
walks from (nr, nc) stepping by (dr, dc), counting opponent stones,
and answers count > 0 on reaching a stone of pl. -/
def Board.can_flip_aux (b : Board) (pl : Player) (dr dc : Int) :
    Nat → Int → Int → Nat → Option Bool
  | 0, _, _, _ => none
  | fuel + 1, nr, nc, count =>
    if inRange nr nc then
      if b.get nr nc = Cell.Empty then some false
      else if b.get nr nc = Cell.Occupied pl then some (decide (0 < count))
      else Board.can_flip_aux b pl dr dc fuel (nr + dr) (nc + dc) (count + 1)
    else some false

/-- Board::can_flip_in_direction from src/game/board.rs.  Fuel 9 is
sufficient for every direction the engine uses (proved below), so the
getD default is never taken there. -/
def Board.can_flip_in_direction (b : Board) (r c dr dc : Int) (pl : Player) : Bool :=
  (Board.can_flip_aux b pl dr dc 9 (r + dr) (c + dc) 0).getD false

/-- The while loop of Board::flip_in_direction, indexed by fuel:
rewrites opponent stones to pl along the ray, stopping at the first
stone of pl, an Empty cell, or the board edge. -/
def Board.flip_aux (pl : Player) (dr dc : Int) :
    Nat → Board → Int → Int → Option Board
  | 0, _, _, _ => none
  | fuel + 1, b, nr, nc =>
    if h : inRange nr nc then
      if b.get nr nc = Cell.Empty then some b
      else if b.get nr nc = Cell.Occupied pl then some b
      else Board.flip_aux pl dr dc fuel
        (b.set ⟨nr.toNat, by omega⟩ ⟨nc.toNat, by omega⟩ (Cell.Occupied pl))
        (nr + dr) (nc + dc)
    else some b

/-- Board::flip_in_direction from src/game/board.rs (fuel 9, see
can_flip_in_direction). -/
def Board.flip_in_direction (b : Board) (r c dr dc : Int) (pl : Player) : Board :=
  (Board.flip_aux pl dr dc 9 b (r + dr) (c + dc)).getD b

/-- The 8 direction vectors produced by the source's nested loops
for dr in -1..=1, for dc in -1..=1, skipping (0,0), in loop order. -/
def dirs : List (Int × Int) :=
  [(-1, -1), (-1, 0), (-1, 1), (0, -1), (0, 1), (1, -1), (1, 0), (1, 1)]

/-- Board::is_valid_move from src/game/board.rs. -/
def Board.is_valid_move (b : Board) (r c : Int) (pl : Player) : Bool :=
  if r < 0 ∨ 8 ≤ r ∨ c < 0 ∨ 8 ≤ c then false
  else if b.get r c ≠ Cell.Empty then false
  else dirs.any fun d => b.can_flip_in_direction r c d.1 d.2 pl

/-- One iteration of the flip loop in Board::make_move: re-test the
direction on the current board and flip it if the test succeeds. -/
def Board.flipStep (r c : Int) (pl : Player) (bd : Board) (d : Int × Int) : Board :=
  if bd.can_flip_in_direction r c d.1 d.2 pl then
    bd.flip_in_direction r c d.1 d.2 pl
  else bd

/-- Board::make_move from src/game/board.rs: validate, place the stone,
then walk the 8 directions in loop order flipping the capturing ones.
The unguarded array store at (r, c) is in range because validity
implies the bounds check passed. -/
def Board.make_move (b : Board) (r c : Int) (pl : Player) : Board × Bool :=
  if h : b.is_valid_move r c pl = true then
    have hin : 0 ≤ r ∧ r < 8 ∧ 0 ≤ c ∧ c < 8 := by
      unfold Board.is_valid_move at h
      split at h
      · simp at h
      · omega
    (dirs.foldl (Board.flipStep r c pl)
      (b.set ⟨r.toNat, by omega⟩ ⟨c.toNat, by omega⟩ (Cell.Occupied pl)), true)
  else (b, false)

/-- Board::has_valid_move from src/game/board.rs. -/
def Board.has_valid_move (b : Board) (pl : Player) : Bool :=
  (List.range 8).any fun r =>
    (List.range 8).any fun c => b.is_valid_move r c pl

/-- Board::count_stones from src/game/board.rs: tally (black, white). -/
def Board.count_stones (b : Board) : Int × Int :=
  (List.finRange 8).foldl
    (fun acc i =>
      (List.finRange 8).foldl
        (fun acc j =>
          match b.cells i j with
          | Cell.Occupied Player.Black => (acc.1 + 1, acc.2)
          | Cell.Occupied Player.White => (acc.1, acc.2 + 1)
          | Cell.Empty => acc)
        acc)
    (0, 0)

/-- Number of Occupied cells of the grid (the occupancy measure of the
spec's invariant section). -/
def occCount (b : Board) : Nat :=
  ∑ p : Fin 8 × Fin 8, (if b.cells p.1 p.2 = Cell.Empty then 0 else 1)

/-- The stone placed at the origin of a move, as done by make_move when
the move is valid; identity out of range (never reached there). -/
def Board.place (b : Board) (r c : Int) (pl : Player) : Board :=
  if h : inRange r c then
    b.set ⟨r.toNat, by omega⟩ ⟨c.toNat, by omega⟩ (Cell.Occupied pl)
  else b

/-- Cell (i, j) lies in the capture run of direction d for a move by pl
at (r, c) on board b1: the directional capture test succeeds and (i, j)
is the k-th cell of the ray with every cell from 1 to k held by the
opponent (so the run stops strictly before the first cell of pl). -/
def inRun (b1 : Board) (r c : Int) (pl : Player) (d : Int × Int)
    (i j : Fin 8) : Prop :=
  b1.can_flip_in_direction r c d.1 d.2 pl = true ∧
  ∃ k : Nat, 1 ≤ k ∧ (i : Int) = r + k * d.1 ∧ (j : Int) = c + k * d.2 ∧
    ∀ m : Nat, 1 ≤ m → m ≤ k →
      b1.get (r + m * d.1) (c + m * d.2) = Cell.Occupied pl.opponent

/-- Cell (i, j) is flipped by a move of pl at (r, c): it lies in the
capture run of some of the 8 directions, tested on the board b1 with
the origin stone already placed. -/
def flipTarget (b1 : Board) (r c : Int) (pl : Player) (i j : Fin 8) : Prop :=
  ∃ d ∈ dirs, inRun b1 r c pl d i j

/-- Fuel measure for the directional walks: how many further steps the
nonzero component of the direction admits before leaving [0,7]. -/
def walkFuel (dr dc nr nc : Int) : Nat :=
  if dr = 0 then (if 0 < dc then 8 - nc else nc + 1).toNat
  else (if 0 < dr then 8 - nr else nr + 1).toNat

theorem valid_imp_inRange (b : Board) (r c : Int) (pl : Player)
    (h : b.is_valid_move r c pl = true) : inRange r c := by
  unfold Board.is_valid_move at h
  split at h
  · simp at h
  · omega

theorem invalid_make_move (b : Board) (r c : Int) (pl : Player)
    (h : b.is_valid_move r c pl = false) : b.make_move r c pl = (b, false) := by
  unfold Board.make_move
  rw [dif_neg]
  simp [h]

theorem get_oob (b : Board) (r c : Int) (h : ¬ inRange r c) :
    b.get r c = Cell.Empty := by
  unfold Board.get
  rw [dif_neg h]

/-- C9: Player::opponent is a pure, total, involutive mapping:
opponent(Black) = White, opponent(White) = Black, and
opponent(opponent(p)) = p for both players. -/
theorem opponent_involutive :
    Player.opponent Player.Black = Player.White ∧
    Player.opponent Player.White = Player.Black ∧
    ∀ p : Player, p.opponent.opponent = p := by
  refine ⟨rfl, rfl, ?_⟩
  intro p
  cases p <;> rfl

/-- C8: Board::new produces exactly the fixed starting layout —
(3,3)=White, (3,4)=Black, (4,3)=Black, (4,4)=White, the other 60 cells
Empty — with exactly 4 occupied cells, and count_stones returns (2,2). -/
theorem new_board_layout :
    Board.new.cells 3 3 = Cell.Occupied Player.White ∧
    Board.new.cells 3 4 = Cell.Occupied Player.Black ∧
    Board.new.cells 4 3 = Cell.Occupied Player.Black ∧
    Board.new.cells 4 4 = Cell.Occupied Player.White ∧
    (∀ i j : Fin 8, ¬((i = 3 ∨ i = 4) ∧ (j = 3 ∨ j = 4)) →
      Board.new.cells i j = Cell.Empty) ∧
    occCount Board.new = 4 ∧
    Board.new.count_stones = (2, 2) := by
  refine ⟨rfl, rfl, rfl, rfl, ?_, by decide, rfl⟩
  decide

/-- C8 witness: a cell away from the four center ones, (0,0), is Empty
on the fresh board. -/
theorem new_board_layout_witness :
    Board.new.cells 0 0 = Cell.Empty :=
  new_board_layout.2.2.2.2.1 0 0 (by decide)

/-- C3: is_valid_move returns false out of [0,7]x[0,7] and on an
already-Occupied target (and, being a pure function of the board,
performs no mutation); on an in-range Empty target it returns true iff
at least one of the 8 directions passes the capture test. -/
theorem is_valid_move_spec (b : Board) (r c : Int) (pl : Player) :
    ((r < 0 ∨ 8 ≤ r ∨ c < 0 ∨ 8 ≤ c) → b.is_valid_move r c pl = false) ∧
    (∀ q : Player, b.get r c = Cell.Occupied q → b.is_valid_move r c pl = false) ∧
    (inRange r c → b.get r c = Cell.Empty →
      (b.is_valid_move r c pl = true ↔
        ∃ d ∈ dirs, b.can_flip_in_direction r c d.1 d.2 pl = true)) := by
  refine ⟨?_, ?_, ?_⟩
  · intro hoob
    unfold Board.is_valid_move
    rw [if_pos hoob]
  · intro q hq
    unfold Board.is_valid_move
    split
    · rfl
    · rw [if_pos (by simp [hq])]
  · intro hin hempty
    unfold Board.is_valid_move
    rw [if_neg (by omega), if_neg (by simp [hempty])]
    simp [List.any_eq_true]

/-- C3 witness: an out-of-range coordinate is rejected on the fresh
board. -/
theorem is_valid_move_spec_witness :
    ((-1 : Int) < 0 ∨ (8 : Int) ≤ -1 ∨ (2 : Int) < 0 ∨ (8 : Int) ≤ 2) ∧
    Board.new.is_valid_move (-1) 2 Player.Black = false :=
  ⟨by decide, (is_valid_move_spec Board.new (-1) 2 Player.Black).1 (by decide)⟩

/-- C4: on an invalid move, make_move returns false and the grid is
returned byte-for-byte unchanged. -/
theorem make_move_invalid_spec (b : Board) (r c : Int) (pl : Player)
    (h : b.is_valid_move r c pl = false) :
    b.make_move r c pl = (b, false) :=
  invalid_make_move b r c pl h

/-- C4 witness: placing Black at the corner (0,0) of the fresh board is
illegal and leaves the board unchanged. -/
theorem make_move_invalid_spec_witness :
    Board.new.is_valid_move 0 0 Player.Black = false ∧
    Board.new.make_move 0 0 Player.Black = (Board.new, false) :=
  ⟨by decide, make_move_invalid_spec Board.new 0 0 Player.Black (by decide)⟩

/-- C7: is_valid_move and make_move are total on all i32 coordinates;
out-of-range coordinates are an ordinary legality failure (false, board
unchanged), and a successful validity check guarantees the coordinates
are in [0,7]x[0,7], so the unguarded grid store of make_move is in
range. -/
theorem total_no_fault (b : Board) (r c : Int) (pl : Player) :
    ((r < 0 ∨ 8 ≤ r ∨ c < 0 ∨ 8 ≤ c) →
      b.is_valid_move r c pl = false ∧ b.make_move r c pl = (b, false)) ∧
    (b.is_valid_move r c pl = true → inRange r c) := by
  constructor
  · intro hoob
    have hv : b.is_valid_move r c pl = false := by
      unfold Board.is_valid_move
      rw [if_pos hoob]
    exact ⟨hv, invalid_make_move b r c pl hv⟩
  · exact valid_imp_inRange b r c pl

/-- C7 witness: a negative row is handled as an ordinary failure on the
fresh board. -/
theorem total_no_fault_witness :
    ((-3 : Int) < 0 ∨ (8 : Int) ≤ -3 ∨ (5 : Int) < 0 ∨ (8 : Int) ≤ 5) ∧
    (Board.new.is_valid_move (-3) 5 Player.White = false ∧
      Board.new.make_move (-3) 5 Player.White = (Board.new, false)) :=
  ⟨by decide, (total_no_fault Board.new (-3) 5 Player.White).1 (by decide)⟩

theorem dir_bounds {dr dc : Int} (hd : (dr, dc) ∈ dirs) :
    -1 ≤ dr ∧ dr ≤ 1 ∧ -1 ≤ dc ∧ dc ≤ 1 ∧ ¬(dr = 0 ∧ dc = 0) := by
  have hall : ∀ d ∈ dirs, -1 ≤ d.1 ∧ d.1 ≤ 1 ∧ -1 ≤ d.2 ∧ d.2 ≤ 1 ∧
      ¬(d.1 = 0 ∧ d.2 = 0) := by decide
  exact hall (dr, dc) hd

theorem walkFuel_step {dr dc : Int} (hd : (dr, dc) ∈ dirs) (nr nc : Int)
    (hin : inRange nr nc) :
    1 ≤ walkFuel dr dc nr nc ∧
    walkFuel dr dc (nr + dr) (nc + dc) = walkFuel dr dc nr nc - 1 := by
  obtain ⟨g1, g2, g3, g4, g5⟩ := dir_bounds hd
  obtain ⟨h0, h1, h2, h3⟩ := hin
  unfold walkFuel
  interval_cases dr <;> interval_cases dc <;> (try simp) <;> omega

theorem walkFuel_le {dr dc : Int} (hd : (dr, dc) ∈ dirs) (nr nc : Int)
    (hin : inRange nr nc) : walkFuel dr dc nr nc ≤ 8 := by
  obtain ⟨g1, g2, g3, g4, g5⟩ := dir_bounds hd
  obtain ⟨h0, h1, h2, h3⟩ := hin
  unfold walkFuel
  interval_cases dr <;> interval_cases dc <;> (try simp) <;> omega

theorem can_flip_aux_isSome (b : Board) (pl : Player) {dr dc : Int}
    (hd : (dr, dc) ∈ dirs) :
    ∀ (fuel : Nat) (nr nc : Int) (count : Nat), 0 < fuel →
      (inRange nr nc → walkFuel dr dc nr nc < fuel) →
      (Board.can_flip_aux b pl dr dc fuel nr nc count).isSome = true := by
  intro fuel
  induction fuel with
  | zero => intro nr nc count h0 _; exact absurd h0 (by omega)
  | succ fuel ih =>
    intro nr nc count _ hm
    simp only [Board.can_flip_aux]
    split
    case isTrue hin =>
      split
      · simp
      · split
        · simp
        · have hs := walkFuel_step hd nr nc hin
          have hm' := hm hin
          exact ih (nr + dr) (nc + dc) (count + 1) (by omega)
            (fun _ => by omega)
    case isFalse hin => simp

theorem flip_aux_isSome (pl : Player) {dr dc : Int} (hd : (dr, dc) ∈ dirs) :
    ∀ (fuel : Nat) (b : Board) (nr nc : Int), 0 < fuel →
      (inRange nr nc → walkFuel dr dc nr nc < fuel) →
      (Board.flip_aux pl dr dc fuel b nr nc).isSome = true := by
  intro fuel
  induction fuel with
  | zero => intro b nr nc h0 _; exact absurd h0 (by omega)
  | succ fuel ih =>
    intro b nr nc _ hm
    simp only [Board.flip_aux]
    split
    case isTrue hin =>
      split
      · simp
      · split
        · simp
        · have hs := walkFuel_step hd nr nc hin
          have hm' := hm hin
          exact ih _ (nr + dr) (nc + dc) (by omega) (fun _ => by omega)
    case isFalse hin => simp

theorem can_flip_aux_nine (b : Board) (pl : Player) {dr dc : Int}
    (hd : (dr, dc) ∈ dirs) (nr nc : Int) (count : Nat) :
    (Board.can_flip_aux b pl dr dc 9 nr nc count).isSome = true :=
  can_flip_aux_isSome b pl hd 9 nr nc count (by omega)
    (fun hin => by have := walkFuel_le hd nr nc hin; omega)

theorem flip_aux_nine (pl : Player) {dr dc : Int} (hd : (dr, dc) ∈ dirs)
    (b : Board) (nr nc : Int) :
    (Board.flip_aux pl dr dc 9 b nr nc).isSome = true :=
  flip_aux_isSome pl hd 9 b nr nc (by omega)
    (fun hin => by have := walkFuel_le hd nr nc hin; omega)

/-- C10: for every one of the 8 nonzero directions the two internal
walks terminate within 8 cell visits plus the final bounds check (fuel
9 always yields a result, for every board and every starting point);
the engine never hands the walks the zero vector ((0,0) is not among
the 8 direction vectors); and with the zero vector the loop really can
spin forever on an opponent-occupied cell: on the fresh board, probing
(3,3) as Black exhausts every finite fuel. -/
theorem walks_terminate :
    (∀ d ∈ dirs, ∀ (b : Board) (pl : Player) (nr nc : Int) (count : Nat),
      (Board.can_flip_aux b pl d.1 d.2 9 nr nc count).isSome = true) ∧
    (∀ d ∈ dirs, ∀ (pl : Player) (b : Board) (nr nc : Int),
      (Board.flip_aux pl d.1 d.2 9 b nr nc).isSome = true) ∧
    (∀ d ∈ dirs, d ≠ ((0 : Int), (0 : Int))) ∧
    (∀ (fuel count : Nat),
      Board.can_flip_aux Board.new Player.Black 0 0 fuel 3 3 count = none) := by
  refine ⟨?_, ?_, by decide, ?_⟩
  · intro d hd b pl nr nc count
    exact can_flip_aux_nine b pl (by simpa using hd) nr nc count
  · intro d hd pl b nr nc
    exact flip_aux_nine pl (by simpa using hd) b nr nc
  · intro fuel
    induction fuel with
    | zero => intro count; rfl
    | succ fuel ih =>
      intro count
      have hget : Board.new.get 3 3 = Cell.Occupied Player.White := by decide
      simp only [Board.can_flip_aux]
      rw [if_pos (by decide), if_neg (by rw [hget]; simp),
        if_neg (by rw [hget]; simp)]
      norm_num
      exact ih (count + 1)

/-- C10 witness: fuel 9 yields a result for the east direction from the
fresh board's top-left corner. -/
theorem walks_terminate_witness :
    ((1 : Int), (0 : Int)) ∈ dirs ∧
    (Board.can_flip_aux Board.new Player.Black 1 0 9 0 0 0).isSome = true :=
  ⟨by decide, walks_terminate.1 (1, 0) (by decide) Board.new Player.Black 0 0 0⟩

theorem opponent_ne (pl : Player) : pl.opponent ≠ pl := by
  cases pl <;> simp [Player.opponent]

theorem cell_opp {x : Cell} {pl : Player} (h1 : x ≠ Cell.Empty)
    (h2 : x ≠ Cell.Occupied pl) : x = Cell.Occupied pl.opponent := by
  cases x with
  | Empty => exact absurd rfl h1
  | Occupied p => cases p <;> cases pl <;> simp_all [Player.opponent]

theorem cast_succ_mul (x d : Int) (u : Nat) :
    x + ((u + 1 : Nat) : Int) * d = x + d + (u : Int) * d := by
  push_cast
  ring

/-- Soundness of the capture walk: a some-true answer exhibits an
opponent run ending at a stone of the acting player. -/
theorem can_flip_aux_sound (b : Board) (pl : Player) (dr dc : Int) :
    ∀ (fuel : Nat) (nr nc : Int) (count : Nat),
      Board.can_flip_aux b pl dr dc fuel nr nc count = some true →
      ∃ t : Nat,
        (∀ s : Nat, s < t → inRange (nr + (s : Int) * dr) (nc + (s : Int) * dc) ∧
          b.get (nr + (s : Int) * dr) (nc + (s : Int) * dc) =
            Cell.Occupied pl.opponent) ∧
        inRange (nr + (t : Int) * dr) (nc + (t : Int) * dc) ∧
        b.get (nr + (t : Int) * dr) (nc + (t : Int) * dc) = Cell.Occupied pl ∧
        0 < count + t := by
  intro fuel
  induction fuel with
  | zero =>
    intro nr nc count h
    simp [Board.can_flip_aux] at h
  | succ fuel ih =>
    intro nr nc count h
    simp only [Board.can_flip_aux] at h
    split at h
    case isTrue hin =>
      split at h
      case isTrue hempty => simp at h
      case isFalse hne =>
        split at h
        case isTrue hown =>
          have hc : 0 < count := of_decide_eq_true (Option.some.inj h)
          refine ⟨0, ?_, ?_, ?_, ?_⟩
          · intro s hs
            omega
          · simpa using hin
          · simpa using hown
          · omega
        case isFalse hnotown =>
          obtain ⟨t, hrun, hin2, hown2, hcnt⟩ := ih (nr + dr) (nc + dc) (count + 1) h
          refine ⟨t + 1, ?_, ?_, ?_, ?_⟩
          · intro s hs
            cases s with
            | zero =>
              constructor
              · simpa using hin
              · simpa using cell_opp hne hnotown
            | succ u =>
              rw [cast_succ_mul nr dr u, cast_succ_mul nc dc u]
              exact hrun u (by omega)
          · rw [cast_succ_mul nr dr t, cast_succ_mul nc dc t]
            exact hin2
          · rw [cast_succ_mul nr dr t, cast_succ_mul nc dc t]
            exact hown2
          · omega
    case isFalse hin => simp at h

/-- Completeness of the capture walk: an opponent run ending at a stone
of the acting player makes the walk answer some true, given enough
fuel. -/
theorem can_flip_aux_complete (b : Board) (pl : Player) (dr dc : Int) :
    ∀ (t : Nat) (fuel : Nat) (nr nc : Int) (count : Nat),
      (∀ s : Nat, s < t → inRange (nr + (s : Int) * dr) (nc + (s : Int) * dc) ∧
        b.get (nr + (s : Int) * dr) (nc + (s : Int) * dc) =
          Cell.Occupied pl.opponent) →
      inRange (nr + (t : Int) * dr) (nc + (t : Int) * dc) →
      b.get (nr + (t : Int) * dr) (nc + (t : Int) * dc) = Cell.Occupied pl →
      0 < count + t → t + 1 ≤ fuel →
      Board.can_flip_aux b pl dr dc fuel nr nc count = some true := by
  intro t
  induction t with
  | zero =>
    intro fuel nr nc count hrun hin hown hcnt hfuel
    obtain ⟨fuel, rfl⟩ : ∃ f, fuel = f + 1 := ⟨fuel - 1, by omega⟩
    have hin0 : inRange nr nc := by simpa using hin
    have hown0 : b.get nr nc = Cell.Occupied pl := by simpa using hown
    simp only [Board.can_flip_aux]
    rw [if_pos hin0, if_neg (by simp [hown0]), if_pos hown0]
    simp only [Option.some.injEq]
    exact decide_eq_true (by omega)
  | succ t ih =>
    intro fuel nr nc count hrun hin hown hcnt hfuel
    obtain ⟨fuel, rfl⟩ : ∃ f, fuel = f + 1 := ⟨fuel - 1, by omega⟩
    have h0 := hrun 0 (by omega)
    have hin0 : inRange nr nc := by simpa using h0.1
    have hopp0 : b.get nr nc = Cell.Occupied pl.opponent := by simpa using h0.2
    simp only [Board.can_flip_aux]
    rw [if_pos hin0, if_neg (by simp [hopp0]),
      if_neg (by simp [hopp0, opponent_ne pl])]
    apply ih fuel (nr + dr) (nc + dc) (count + 1)
    · intro s hs
      have h1 := hrun (s + 1) (by omega)
      rw [cast_succ_mul nr dr s, cast_succ_mul nc dc s] at h1
      exact h1
    · rw [← cast_succ_mul nr dr t, ← cast_succ_mul nc dc t]
      exact hin
    · rw [← cast_succ_mul nr dr t, ← cast_succ_mul nc dc t]
      exact hown
    · omega
    · omega

theorem can_flip_eq_aux (b : Board) (r c dr dc : Int) (pl : Player) :
    b.can_flip_in_direction r c dr dc pl = true ↔
      Board.can_flip_aux b pl dr dc 9 (r + dr) (c + dc) 0 = some true := by
  cases haux : Board.can_flip_aux b pl dr dc 9 (r + dr) (c + dc) 0 with
  | none => simp [Board.can_flip_in_direction, haux]
  | some v => simp [Board.can_flip_in_direction, haux]

theorem steps_le_seven {dr dc : Int} (hd : (dr, dc) ∈ dirs) {r c : Int} {k : Nat}
    (h1 : inRange (r + dr) (c + dc))
    (h2 : inRange (r + ((k : Int) + 1) * dr) (c + ((k : Int) + 1) * dc)) :
    k ≤ 7 := by
  obtain ⟨g1, g2, g3, g4, g5⟩ := dir_bounds hd
  obtain ⟨a1, a2, a3, a4⟩ := h1
  obtain ⟨b1, b2, b3, b4⟩ := h2
  interval_cases dr <;> interval_cases dc <;> omega

/-- The origin-based characterization of the directional capture test:
true iff some run of k >= 1 opponent cells starting right next to the
origin is bracketed by a cell of the acting player. -/
theorem can_flip_iff_run (b : Board) (r c : Int) {dr dc : Int}
    (hd : (dr, dc) ∈ dirs) (pl : Player) :
    b.can_flip_in_direction r c dr dc pl = true ↔
      ∃ k : Nat, 1 ≤ k ∧
        (∀ i : Nat, 1 ≤ i → i ≤ k →
          inRange (r + (i : Int) * dr) (c + (i : Int) * dc) ∧
          b.get (r + (i : Int) * dr) (c + (i : Int) * dc) =
            Cell.Occupied pl.opponent) ∧
        inRange (r + ((k : Int) + 1) * dr) (c + ((k : Int) + 1) * dc) ∧
        b.get (r + ((k : Int) + 1) * dr) (c + ((k : Int) + 1) * dc) =
          Cell.Occupied pl := by
  have hone : ∀ x e : Int, x + ((1 : Nat) : Int) * e = x + e := by
    intro x e
    push_cast
    ring
  constructor
  · intro h
    obtain ⟨t, hrun, hin2, hown2, hcnt⟩ :=
      can_flip_aux_sound b pl dr dc 9 (r + dr) (c + dc) 0
        ((can_flip_eq_aux b r c dr dc pl).mp h)
    refine ⟨t, by omega, ?_, ?_, ?_⟩
    · intro i h1i hik
      obtain ⟨u, rfl⟩ : ∃ u, i = u + 1 := ⟨i - 1, by omega⟩
      rw [cast_succ_mul r dr u, cast_succ_mul c dc u]
      exact hrun u (by omega)
    · have he1 : r + ((t : Int) + 1) * dr = r + dr + (t : Int) * dr := by ring
      have he2 : c + ((t : Int) + 1) * dc = c + dc + (t : Int) * dc := by ring
      rw [he1, he2]
      exact hin2
    · have he1 : r + ((t : Int) + 1) * dr = r + dr + (t : Int) * dr := by ring
      have he2 : c + ((t : Int) + 1) * dc = c + dc + (t : Int) * dc := by ring
      rw [he1, he2]
      exact hown2
  · rintro ⟨k, hk1, hrun, hinK, hownK⟩
    apply (can_flip_eq_aux b r c dr dc pl).mpr
    have h1 := hrun 1 (by omega) (by omega)
    rw [hone r dr, hone c dc] at h1
    have he1 : r + ((k : Int) + 1) * dr = r + dr + (k : Int) * dr := by ring
    have he2 : c + ((k : Int) + 1) * dc = c + dc + (k : Int) * dc := by ring
    rw [he1, he2] at hinK hownK
    apply can_flip_aux_complete b pl dr dc k 9 (r + dr) (c + dc) 0
    · intro s hs
      have hx := hrun (s + 1) (by omega) (by omega)
      rw [cast_succ_mul r dr s, cast_succ_mul c dc s] at hx
      exact hx
    · exact hinK
    · exact hownK
    · omega
    · have hk7 : k ≤ 7 := by
        apply steps_le_seven hd h1.1
        rw [he1, he2]
        exact hinK
      omega

/-- C2: the directional capture test returns true iff walking outward
from the origin along the direction traverses at least one consecutive
opponent-occupied cell and then reaches a cell occupied by the acting
player; in particular it returns false whenever the first cell stepped
into is off-board or Empty. -/
theorem capture_test_spec (b : Board) (r c : Int) (d : Int × Int)
    (hd : d ∈ dirs) (pl : Player) :
    (b.can_flip_in_direction r c d.1 d.2 pl = true ↔
      ∃ k : Nat, 1 ≤ k ∧
        (∀ i : Nat, 1 ≤ i → i ≤ k →
          inRange (r + (i : Int) * d.1) (c + (i : Int) * d.2) ∧
          b.get (r + (i : Int) * d.1) (c + (i : Int) * d.2) =
            Cell.Occupied pl.opponent) ∧
        inRange (r + ((k : Int) + 1) * d.1) (c + ((k : Int) + 1) * d.2) ∧
        b.get (r + ((k : Int) + 1) * d.1) (c + ((k : Int) + 1) * d.2) =
          Cell.Occupied pl) ∧
    ((¬ inRange (r + d.1) (c + d.2) ∨ b.get (r + d.1) (c + d.2) = Cell.Empty) →
      b.can_flip_in_direction r c d.1 d.2 pl = false) := by
  obtain ⟨dr, dc⟩ := d
  simp only at *
  constructor
  · exact can_flip_iff_run b r c hd pl
  · intro hbad
    by_contra hne
    have h : b.can_flip_in_direction r c dr dc pl = true := by
      cases hval : b.can_flip_in_direction r c dr dc pl
      · exact absurd hval hne
      · rfl
    obtain ⟨t, hrun, hin2, hown2, hcnt⟩ :=
      can_flip_aux_sound b pl dr dc 9 (r + dr) (c + dc) 0
        ((can_flip_eq_aux b r c dr dc pl).mp h)
    have h0 := hrun 0 (by omega)
    have hin0 : inRange (r + dr) (c + dc) := by simpa using h0.1
    have hget0 : b.get (r + dr) (c + dc) = Cell.Occupied pl.opponent := by
      simpa using h0.2
    rcases hbad with hb | hb
    · exact hb hin0
    · rw [hb] at hget0
      simp at hget0

/-- C2 witness: from (2,3) going south, Black flanks the single White
stone at (3,3) against the Black stone at (4,3) on the fresh board. -/
theorem capture_test_spec_witness :
    ((1 : Int), (0 : Int)) ∈ dirs ∧
    (Board.new.can_flip_in_direction 2 3 1 0 Player.Black = true ↔
      ∃ k : Nat, 1 ≤ k ∧
        (∀ i : Nat, 1 ≤ i → i ≤ k →
          inRange ((2 : Int) + (i : Int) * 1) ((3 : Int) + (i : Int) * 0) ∧
          Board.new.get ((2 : Int) + (i : Int) * 1) ((3 : Int) + (i : Int) * 0) =
            Cell.Occupied Player.Black.opponent) ∧
        inRange ((2 : Int) + ((k : Int) + 1) * 1) ((3 : Int) + ((k : Int) + 1) * 0) ∧
        Board.new.get ((2 : Int) + ((k : Int) + 1) * 1)
            ((3 : Int) + ((k : Int) + 1) * 0) = Cell.Occupied Player.Black) :=
  ⟨by decide, (capture_test_spec Board.new 2 3 (1, 0) (by decide) Player.Black).1⟩

theorem Board.set_cells (b : Board) (i0 j0 : Fin 8) (v : Cell) (i j : Fin 8) :
    (b.set i0 j0 v).cells i j = if i = i0 ∧ j = j0 then v else b.cells i j := rfl

theorem get_int_coe (b : Board) (i j : Fin 8) :
    b.get (i : Int) (j : Int) = b.cells i j := by
  have hi := i.isLt
  have hj := j.isLt
  unfold Board.get
  rw [dif_pos ⟨by omega, by omega, by omega, by omega⟩]
  congr 1

theorem inRange_of_get_occ {b : Board} {x y : Int} {p : Player}
    (h : b.get x y = Cell.Occupied p) : inRange x y := by
  by_contra hc
  rw [get_oob b x y hc] at h
  simp at h

theorem get_eq_of_cells_eq (bA bB : Board) (x y : Int)
    (h : ∀ i j : Fin 8, (i : Int) = x → (j : Int) = y → bA.cells i j = bB.cells i j) :
    bA.get x y = bB.get x y := by
  by_cases hin : inRange x y
  · obtain ⟨h1, h2, h3, h4⟩ := hin
    unfold Board.get
    rw [dif_pos ⟨h1, h2, h3, h4⟩, dif_pos ⟨h1, h2, h3, h4⟩]
    exact h _ _ (by simp; omega) (by simp; omega)
  · rw [get_oob bA x y hin, get_oob bB x y hin]

theorem set_cells_int (b : Board) {nr nc : Int} (h : inRange nr nc) (v : Cell)
    (i j : Fin 8) :
    (b.set ⟨nr.toNat, by omega⟩ ⟨nc.toNat, by omega⟩ v).cells i j =
      if (i : Int) = nr ∧ (j : Int) = nc then v else b.cells i j := by
  obtain ⟨h1, h2, h3, h4⟩ := h
  by_cases hc : (i : Int) = nr ∧ (j : Int) = nc
  · have h5 := hc.1
    have h6 := hc.2
    rw [if_pos hc, Board.set_cells,
      if_pos ⟨Fin.ext (show i.val = nr.toNat by omega),
        Fin.ext (show j.val = nc.toNat by omega)⟩]
  · rw [if_neg hc, Board.set_cells, if_neg ?_]
    rintro ⟨rfl, rfl⟩
    exact hc ⟨Int.toNat_of_nonneg h1, Int.toNat_of_nonneg h3⟩

theorem can_flip_aux_congr (bA bB : Board) (pl : Player) (dr dc : Int) :
    ∀ (fuel : Nat) (nr nc : Int) (count : Nat),
      (∀ s : Nat, bA.get (nr + (s : Int) * dr) (nc + (s : Int) * dc) =
        bB.get (nr + (s : Int) * dr) (nc + (s : Int) * dc)) →
      Board.can_flip_aux bA pl dr dc fuel nr nc count =
        Board.can_flip_aux bB pl dr dc fuel nr nc count := by
  intro fuel
  induction fuel with
  | zero => intro nr nc count _; rfl
  | succ fuel ih =>
    intro nr nc count hag
    have h0 : bA.get nr nc = bB.get nr nc := by simpa using hag 0
    simp only [Board.can_flip_aux]
    rw [h0]
    by_cases hin : inRange nr nc
    · rw [if_pos hin, if_pos hin]
      by_cases he : bB.get nr nc = Cell.Empty
      · rw [if_pos he, if_pos he]
      · rw [if_neg he, if_neg he]
        by_cases ho : bB.get nr nc = Cell.Occupied pl
        · rw [if_pos ho, if_pos ho]
        · rw [if_neg ho, if_neg ho]
          apply ih
          intro s
          have hx := hag (s + 1)
          rw [cast_succ_mul nr dr s, cast_succ_mul nc dc s] at hx
          exact hx
    · rw [if_neg hin, if_neg hin]

theorem can_flip_congr (bA bB : Board) (r c dr dc : Int) (pl : Player)
    (hag : ∀ s : Nat, 1 ≤ s →
      bA.get (r + (s : Int) * dr) (c + (s : Int) * dc) =
        bB.get (r + (s : Int) * dr) (c + (s : Int) * dc)) :
    bA.can_flip_in_direction r c dr dc pl =
      bB.can_flip_in_direction r c dr dc pl := by
  unfold Board.can_flip_in_direction
  rw [can_flip_aux_congr bA bB pl dr dc 9 (r + dr) (c + dc) 0 ?_]
  intro s
  have hx := hag (s + 1) (by omega)
  rw [cast_succ_mul r dr s, cast_succ_mul c dc s] at hx
  exact hx

theorem ray_ne_origin {dr dc : Int} (hd : (dr, dc) ∈ dirs) (r c : Int) {k : Nat}
    (hk : 1 ≤ k) : ¬(r + (k : Int) * dr = r ∧ c + (k : Int) * dc = c) := by
  obtain ⟨g1, g2, g3, g4, g5⟩ := dir_bounds hd
  intro hc
  interval_cases dr <;> interval_cases dc <;> omega

theorem rays_disjoint {dr dc dr' dc' : Int} (hd : (dr, dc) ∈ dirs)
    (hd' : (dr', dc') ∈ dirs) (hne : (dr, dc) ≠ (dr', dc')) (r c : Int)
    {s t : Nat} (hs : 1 ≤ s) (ht : 1 ≤ t) :
    ¬(r + (s : Int) * dr = r + (t : Int) * dr' ∧
      c + (s : Int) * dc = c + (t : Int) * dc') := by
  obtain ⟨g1, g2, g3, g4, g5⟩ := dir_bounds hd
  obtain ⟨k1, k2, k3, k4, k5⟩ := dir_bounds hd'
  have hne2 : ¬(dr = dr' ∧ dc = dc') := by simpa [Prod.ext_iff] using hne
  intro hc
  interval_cases dr <;> interval_cases dc <;> interval_cases dr' <;>
    interval_cases dc' <;> omega

theorem runOpp_le {b : Board} {r c dr dc : Int} {pl : Player} {k K : Nat}
    (hownK : b.get (r + ((K : Int) + 1) * dr) (c + ((K : Int) + 1) * dc) =
      Cell.Occupied pl)
    (hk : ∀ m : Nat, 1 ≤ m → m ≤ k →
      b.get (r + (m : Int) * dr) (c + (m : Int) * dc) =
        Cell.Occupied pl.opponent) : k ≤ K := by
  by_contra hgt
  have hx := hk (K + 1) (by omega) (by omega)
  have he1 : r + ((K + 1 : Nat) : Int) * dr = r + ((K : Int) + 1) * dr := by
    push_cast
    ring
  have he2 : c + ((K + 1 : Nat) : Int) * dc = c + ((K : Int) + 1) * dc := by
    push_cast
    ring
  rw [he1, he2] at hx
  rw [hownK] at hx
  exact opponent_ne pl (Cell.Occupied.inj hx).symm

theorem ray_shift_ne_start {dr dc : Int} (hd : (dr, dc) ∈ dirs) (nr nc : Int)
    (u : Nat) :
    ¬(nr + dr + (u : Int) * dr = nr ∧ nc + dc + (u : Int) * dc = nc) := by
  obtain ⟨g1, g2, g3, g4, g5⟩ := dir_bounds hd
  intro hc
  interval_cases dr <;> interval_cases dc <;> omega

theorem get_set_ne (b : Board) {nr nc : Int} (h : inRange nr nc) (v : Cell)
    {x y : Int} (hne : ¬(x = nr ∧ y = nc)) :
    (b.set ⟨nr.toNat, by omega⟩ ⟨nc.toNat, by omega⟩ v).get x y = b.get x y := by
  apply get_eq_of_cells_eq
  intro i j hi hj
  rw [set_cells_int b h v i j, if_neg ?_]
  intro hc
  exact hne ⟨hi.symm.trans hc.1, hj.symm.trans hc.2⟩

/-- Pointwise characterization of the flip walk along an opponent run
bracketed by a stone of the acting player: exactly the run cells are
rewritten to the acting player, everything else is untouched and the
walk terminates at the bracketing stone. -/
theorem flip_aux_char (pl : Player) {dr dc : Int} (hd : (dr, dc) ∈ dirs) :
    ∀ (t fuel : Nat) (b : Board) (nr nc : Int),
      (∀ s : Nat, s < t → inRange (nr + (s : Int) * dr) (nc + (s : Int) * dc) ∧
        b.get (nr + (s : Int) * dr) (nc + (s : Int) * dc) =
          Cell.Occupied pl.opponent) →
      inRange (nr + (t : Int) * dr) (nc + (t : Int) * dc) →
      b.get (nr + (t : Int) * dr) (nc + (t : Int) * dc) = Cell.Occupied pl →
      t + 1 ≤ fuel →
      ∃ b2, Board.flip_aux pl dr dc fuel b nr nc = some b2 ∧
        ∀ i j : Fin 8,
          ((∃ s : Nat, s < t ∧ (i : Int) = nr + (s : Int) * dr ∧
              (j : Int) = nc + (s : Int) * dc) →
            b2.cells i j = Cell.Occupied pl) ∧
          ((¬ ∃ s : Nat, s < t ∧ (i : Int) = nr + (s : Int) * dr ∧
              (j : Int) = nc + (s : Int) * dc) →
            b2.cells i j = b.cells i j) := by
  intro t
  induction t with
  | zero =>
    intro fuel b nr nc hrun hin hown hfuel
    obtain ⟨fuel, rfl⟩ : ∃ f, fuel = f + 1 := ⟨fuel - 1, by omega⟩
    have hin0 : inRange nr nc := by simpa using hin
    have hown0 : b.get nr nc = Cell.Occupied pl := by simpa using hown
    refine ⟨b, ?_, ?_⟩
    · simp only [Board.flip_aux]
      rw [dif_pos hin0, if_neg (by simp [hown0]), if_pos hown0]
    · intro i j
      constructor
      · rintro ⟨s, hs, _⟩
        omega
      · intro _
        rfl
  | succ t ih =>
    intro fuel b nr nc hrun hin hown hfuel
    obtain ⟨fuel, rfl⟩ : ∃ f, fuel = f + 1 := ⟨fuel - 1, by omega⟩
    have h0 := hrun 0 (by omega)
    have hin0 : inRange nr nc := by simpa using h0.1
    have hopp0 : b.get nr nc = Cell.Occupied pl.opponent := by simpa using h0.2
    obtain ⟨b2, heq, hchar⟩ := ih fuel
      (b.set ⟨nr.toNat, by omega⟩ ⟨nc.toNat, by omega⟩ (Cell.Occupied pl))
      (nr + dr) (nc + dc)
      (by
        intro s hs
        have hx := hrun (s + 1) (by omega)
        rw [cast_succ_mul nr dr s, cast_succ_mul nc dc s] at hx
        refine ⟨hx.1, ?_⟩
        rw [get_set_ne b hin0 (Cell.Occupied pl)
          (ray_shift_ne_start hd nr nc s)]
        exact hx.2)
      (by
        have hx := hin
        rw [cast_succ_mul nr dr t, cast_succ_mul nc dc t] at hx
        exact hx)
      (by
        have hx := hown
        rw [cast_succ_mul nr dr t, cast_succ_mul nc dc t] at hx
        rw [get_set_ne b hin0 (Cell.Occupied pl)
          (ray_shift_ne_start hd nr nc t)]
        exact hx)
      (by omega)
    refine ⟨b2, ?_, ?_⟩
    · simp only [Board.flip_aux]
      rw [dif_pos hin0, if_neg (by simp [hopp0]),
        if_neg (by simp [hopp0, opponent_ne pl])]
      exact heq
    · intro i j
      constructor
      · rintro ⟨s, hs, hi, hj⟩
        cases s with
        | zero =>
          have hi0 : (i : Int) = nr := by simpa using hi
          have hj0 : (j : Int) = nc := by simpa using hj
          have hnot : ¬ ∃ s : Nat, s < t ∧
              (i : Int) = nr + dr + (s : Int) * dr ∧
              (j : Int) = nc + dc + (s : Int) * dc := by
            rintro ⟨u, hu, hx, hy⟩
            exact ray_shift_ne_start hd nr nc u
              ⟨hx.symm.trans hi0, hy.symm.trans hj0⟩
          rw [(hchar i j).2 hnot, set_cells_int b hin0 _ i j,
            if_pos ⟨hi0, hj0⟩]
        | succ u =>
          rw [cast_succ_mul nr dr u] at hi
          rw [cast_succ_mul nc dc u] at hj
          exact (hchar i j).1 ⟨u, by omega, hi, hj⟩
      · intro hnot
        have hnot' : ¬ ∃ s : Nat, s < t ∧
            (i : Int) = nr + dr + (s : Int) * dr ∧
            (j : Int) = nc + dc + (s : Int) * dc := by
          rintro ⟨u, hu, hx, hy⟩
          refine hnot ⟨u + 1, by omega, ?_, ?_⟩
          · rw [cast_succ_mul nr dr u]
            exact hx
          · rw [cast_succ_mul nc dc u]
            exact hy
        have hne0 : ¬((i : Int) = nr ∧ (j : Int) = nc) := by
          rintro ⟨hx, hy⟩
          exact hnot ⟨0, by omega, by simpa using hx, by simpa using hy⟩
        rw [(hchar i j).2 hnot', set_cells_int b hin0 _ i j, if_neg hne0]

/-- Origin-based corollary of flip_aux_char for flip_in_direction:
given a capture run of length K, exactly the cells 1..K of the ray
become the acting player's, every other cell (the bracketing stone at
K+1 included) is unchanged. -/
theorem flip_in_direction_char (b : Board) (r c : Int) {dr dc : Int}
    (hd : (dr, dc) ∈ dirs) (pl : Player) {K : Nat}
    (hrunK : ∀ i : Nat, 1 ≤ i → i ≤ K →
      inRange (r + (i : Int) * dr) (c + (i : Int) * dc) ∧
      b.get (r + (i : Int) * dr) (c + (i : Int) * dc) =
        Cell.Occupied pl.opponent)
    (hinK : inRange (r + ((K : Int) + 1) * dr) (c + ((K : Int) + 1) * dc))
    (hownK : b.get (r + ((K : Int) + 1) * dr) (c + ((K : Int) + 1) * dc) =
      Cell.Occupied pl)
    (hK1 : 1 ≤ K) :
    ∀ i j : Fin 8,
      ((∃ k : Nat, 1 ≤ k ∧ k ≤ K ∧ (i : Int) = r + (k : Int) * dr ∧
          (j : Int) = c + (k : Int) * dc) →
        (b.flip_in_direction r c dr dc pl).cells i j = Cell.Occupied pl) ∧
      ((¬ ∃ k : Nat, 1 ≤ k ∧ k ≤ K ∧ (i : Int) = r + (k : Int) * dr ∧
          (j : Int) = c + (k : Int) * dc) →
        (b.flip_in_direction r c dr dc pl).cells i j = b.cells i j) := by
  have h1 := hrunK 1 (by omega) (by omega)
  have hone : ∀ x e : Int, x + ((1 : Nat) : Int) * e = x + e := by
    intro x e
    push_cast
    ring
  rw [hone r dr, hone c dc] at h1
  have hK7 : K ≤ 7 := steps_le_seven hd h1.1 hinK
  have he1 : r + ((K : Int) + 1) * dr = r + dr + (K : Int) * dr := by ring
  have he2 : c + ((K : Int) + 1) * dc = c + dc + (K : Int) * dc := by ring
  obtain ⟨b2, heq, hchar⟩ := flip_aux_char pl hd K 9 b (r + dr) (c + dc)
    (by
      intro s hs
      have hx := hrunK (s + 1) (by omega) (by omega)
      rw [cast_succ_mul r dr s, cast_succ_mul c dc s] at hx
      exact hx)
    (by
      rw [← he1, ← he2]
      exact hinK)
    (by
      rw [← he1, ← he2]
      exact hownK)
    (by omega)
  have hflip : b.flip_in_direction r c dr dc pl = b2 := by
    unfold Board.flip_in_direction
    rw [heq]
    rfl
  intro i j
  rw [hflip]
  constructor
  · rintro ⟨k, hk1, hkK, hi, hj⟩
    obtain ⟨u, rfl⟩ : ∃ u, k = u + 1 := ⟨k - 1, by omega⟩
    rw [cast_succ_mul r dr u] at hi
    rw [cast_succ_mul c dc u] at hj
    exact (hchar i j).1 ⟨u, by omega, hi, hj⟩
  · intro hnot
    refine (hchar i j).2 ?_
    rintro ⟨u, hu, hx, hy⟩
    refine hnot ⟨u + 1, by omega, by omega, ?_, ?_⟩
    · rw [cast_succ_mul r dr u]
      exact hx
    · rw [cast_succ_mul c dc u]
      exact hy

/-- Pointwise characterization of the per-direction flip loop of
make_move: starting from any board that agrees with b1 on every ray of
the directions still to process, the loop turns exactly the capture-run
cells (determined on b1) into the acting player's stones and touches
nothing else.  Rays of distinct directions are disjoint, so processing
one direction never disturbs the capture test of another. -/
theorem foldl_flip_char (b1 : Board) (r c : Int) (pl : Player) :
    ∀ (L : List (Int × Int)) (bcur : Board),
      (∀ d ∈ L, d ∈ dirs) → L.Nodup →
      (∀ d ∈ L, ∀ s : Nat, 1 ≤ s →
        bcur.get (r + (s : Int) * d.1) (c + (s : Int) * d.2) =
          b1.get (r + (s : Int) * d.1) (c + (s : Int) * d.2)) →
      ∀ i j : Fin 8,
        ((∃ d ∈ L, inRun b1 r c pl d i j) →
          (L.foldl (Board.flipStep r c pl) bcur).cells i j =
            Cell.Occupied pl) ∧
        ((¬ ∃ d ∈ L, inRun b1 r c pl d i j) →
          (L.foldl (Board.flipStep r c pl) bcur).cells i j =
            bcur.cells i j) := by
  intro L
  induction L with
  | nil =>
    intro bcur _ _ _ i j
    constructor
    · rintro ⟨d, hd, _⟩
      simp at hd
    · intro _
      rfl
  | cons d L' ih =>
    rcases d with ⟨dr, dc⟩
    intro bcur hsub hnd hag i j
    have hdd : (dr, dc) ∈ dirs := hsub _ (List.mem_cons_self _ _)
    have hsub' : ∀ d ∈ L', d ∈ dirs := fun d hd =>
      hsub _ (List.mem_cons_of_mem _ hd)
    have hnd' := (List.nodup_cons.mp hnd).2
    have hnotmem := (List.nodup_cons.mp hnd).1
    have hcfeq : bcur.can_flip_in_direction r c dr dc pl =
        b1.can_flip_in_direction r c dr dc pl :=
      can_flip_congr bcur b1 r c dr dc pl
        (hag _ (List.mem_cons_self _ _))
    by_cases hcap : b1.can_flip_in_direction r c dr dc pl = true
    · obtain ⟨K, hK1, hrunK, hinK, hownK⟩ :=
        (can_flip_iff_run b1 r c hdd pl).mp hcap
      have hrunK' : ∀ m : Nat, 1 ≤ m → m ≤ K →
          inRange (r + (m : Int) * dr) (c + (m : Int) * dc) ∧
          bcur.get (r + (m : Int) * dr) (c + (m : Int) * dc) =
            Cell.Occupied pl.opponent := by
        intro m h1m hmK
        have hx := hrunK m h1m hmK
        refine ⟨hx.1, ?_⟩
        rw [hag _ (List.mem_cons_self _ _) m h1m]
        exact hx.2
      have he1 : r + ((K + 1 : Nat) : Int) * dr = r + ((K : Int) + 1) * dr := by
        push_cast
        ring
      have he2 : c + ((K + 1 : Nat) : Int) * dc = c + ((K : Int) + 1) * dc := by
        push_cast
        ring
      have hownK' : bcur.get (r + ((K : Int) + 1) * dr)
          (c + ((K : Int) + 1) * dc) = Cell.Occupied pl := by
        have hx := hag _ (List.mem_cons_self _ _) (K + 1) (by omega)
        rw [he1, he2] at hx
        rw [hx]
        exact hownK
      have hchar := flip_in_direction_char bcur r c hdd pl hrunK' hinK hownK' hK1
      have hstep : Board.flipStep r c pl bcur (dr, dc) =
          bcur.flip_in_direction r c dr dc pl := by
        unfold Board.flipStep
        rw [if_pos (hcfeq.trans hcap)]
      have hag' : ∀ d' ∈ L', ∀ s : Nat, 1 ≤ s →
          (bcur.flip_in_direction r c dr dc pl).get
              (r + (s : Int) * d'.1) (c + (s : Int) * d'.2) =
            b1.get (r + (s : Int) * d'.1) (c + (s : Int) * d'.2) := by
        intro d' hd' s hs
        have hne : (dr, dc) ≠ d' := by
          intro hcontra
          exact hnotmem (hcontra ▸ hd')
        obtain ⟨dr', dc'⟩ := d'
        have hflipget : (bcur.flip_in_direction r c dr dc pl).get
            (r + (s : Int) * dr') (c + (s : Int) * dc') =
            bcur.get (r + (s : Int) * dr') (c + (s : Int) * dc') := by
          apply get_eq_of_cells_eq
          intro i' j' hi' hj'
          apply (hchar i' j').2
          rintro ⟨k, hk1, _, hx, hy⟩
          exact rays_disjoint hdd (hsub' _ hd') hne r c hk1 hs
            ⟨hx.symm.trans hi', hy.symm.trans hj'⟩
        rw [hflipget]
        exact hag _ (List.mem_cons_of_mem _ hd') s hs
      have IH := ih (bcur.flip_in_direction r c dr dc pl) hsub' hnd' hag' i j
      rw [List.foldl_cons, hstep]
      constructor
      · intro hx
        by_cases hL' : ∃ d' ∈ L', inRun b1 r c pl d' i j
        · exact IH.1 hL'
        · have hrun_d : inRun b1 r c pl (dr, dc) i j := by
            rcases hx with ⟨d'', hmem, hr⟩
            rcases List.mem_cons.mp hmem with rfl | hmem'
            · exact hr
            · exact absurd ⟨d'', hmem', hr⟩ hL'
          simp only [inRun] at hrun_d
          obtain ⟨_, k, hk1, hi, hj2, hkrun⟩ := hrun_d
          have hkK : k ≤ K := runOpp_le hownK hkrun
          rw [IH.2 hL']
          exact (hchar i j).1 ⟨k, hk1, hkK, hi, hj2⟩
      · intro hx
        have hL' : ¬ ∃ d' ∈ L', inRun b1 r c pl d' i j := by
          rintro ⟨d', hd', hr⟩
          exact hx ⟨d', List.mem_cons_of_mem _ hd', hr⟩
        rw [IH.2 hL']
        apply (hchar i j).2
        rintro ⟨k, hk1, hkK, hi, hj2⟩
        apply hx
        refine ⟨(dr, dc), List.mem_cons_self _ _, ?_⟩
        simp only [inRun]
        exact ⟨hcap, k, hk1, hi, hj2,
          fun m h1m hmk => (hrunK m h1m (by omega)).2⟩
    · have hstep : Board.flipStep r c pl bcur (dr, dc) = bcur := by
        unfold Board.flipStep
        rw [if_neg (fun hh => hcap (hcfeq.symm.trans hh))]
      have hag' : ∀ d' ∈ L', ∀ s : Nat, 1 ≤ s →
          bcur.get (r + (s : Int) * d'.1) (c + (s : Int) * d'.2) =
            b1.get (r + (s : Int) * d'.1) (c + (s : Int) * d'.2) :=
        fun d' hd' => hag _ (List.mem_cons_of_mem _ hd')
      have IH := ih bcur hsub' hnd' hag' i j
      rw [List.foldl_cons, hstep]
      constructor
      · intro hx
        apply IH.1
        rcases hx with ⟨d'', hmem, hr⟩
        rcases List.mem_cons.mp hmem with rfl | hmem'
        · exact absurd hr.1 hcap
        · exact ⟨d'', hmem', hr⟩
      · intro hx
        exact IH.2 fun hcontra => by
          obtain ⟨d', hd', hr⟩ := hcontra
          exact hx ⟨d', List.mem_cons_of_mem _ hd', hr⟩

theorem valid_get_empty (b : Board) (r c : Int) (pl : Player)
    (h : b.is_valid_move r c pl = true) : b.get r c = Cell.Empty := by
  unfold Board.is_valid_move at h
  split at h
  · simp at h
  · split at h
    · simp at h
    · next hnn => exact not_not.mp hnn

theorem make_move_eq (b : Board) (r c : Int) (pl : Player)
    (h : b.is_valid_move r c pl = true) :
    b.make_move r c pl =
      (dirs.foldl (Board.flipStep r c pl) (b.place r c pl), true) := by
  have hin := valid_imp_inRange b r c pl h
  unfold Board.make_move
  rw [dif_pos h]
  unfold Board.place
  rw [dif_pos hin]

theorem get_as_cells (b : Board) {x y : Int} (h : inRange x y) :
    b.get x y = b.cells ⟨x.toNat, by omega⟩ ⟨y.toNat, by omega⟩ := by
  unfold Board.get
  rw [dif_pos h]

theorem place_cells (b : Board) {r c : Int} (hin : inRange r c) (pl : Player)
    (i j : Fin 8) :
    (b.place r c pl).cells i j =
      if (i : Int) = r ∧ (j : Int) = c then Cell.Occupied pl
      else b.cells i j := by
  unfold Board.place
  rw [dif_pos hin]
  exact set_cells_int b hin _ i j

theorem place_get_ne (b : Board) {r c : Int} (hin : inRange r c) (pl : Player)
    {x y : Int} (hne : ¬(x = r ∧ y = c)) :
    (b.place r c pl).get x y = b.get x y := by
  unfold Board.place
  rw [dif_pos hin]
  exact get_set_ne b hin _ hne

theorem dirs_nodup : dirs.Nodup := by decide

/-- C1: a valid make_move returns true, sets the origin cell to the
acting player, flips exactly the cells lying in a capture run of one of
the 8 directions (each run stopping strictly before the first cell
already held by the acting player, which is left unchanged), and leaves
every other cell unchanged. -/
theorem make_move_spec (b : Board) (r c : Int) (pl : Player)
    (h : b.is_valid_move r c pl = true) :
    (b.make_move r c pl).2 = true ∧
    (b.make_move r c pl).1.get r c = Cell.Occupied pl ∧
    ∀ i j : Fin 8, ¬((i : Int) = r ∧ (j : Int) = c) →
      (flipTarget (b.place r c pl) r c pl i j →
        (b.make_move r c pl).1.cells i j = Cell.Occupied pl) ∧
      (¬ flipTarget (b.place r c pl) r c pl i j →
        (b.make_move r c pl).1.cells i j = b.cells i j) := by
  have hin := valid_imp_inRange b r c pl h
  have hmm := make_move_eq b r c pl h
  have hchar := foldl_flip_char (b.place r c pl) r c pl dirs (b.place r c pl)
    (fun _ hd => hd) dirs_nodup (fun _ _ _ _ => rfl)
  refine ⟨by rw [hmm], ?_, ?_⟩
  · rw [hmm]
    show (dirs.foldl (Board.flipStep r c pl) (b.place r c pl)).get r c =
      Cell.Occupied pl
    rw [get_as_cells _ hin]
    have hi0 : ((⟨r.toNat, by omega⟩ : Fin 8) : Int) = r :=
      Int.toNat_of_nonneg hin.1
    have hj0 : ((⟨c.toNat, by omega⟩ : Fin 8) : Int) = c :=
      Int.toNat_of_nonneg hin.2.2.1
    have hnone : ¬ ∃ d ∈ dirs, inRun (b.place r c pl) r c pl d
        ⟨r.toNat, by omega⟩ ⟨c.toNat, by omega⟩ := by
      rintro ⟨d, hd, hr⟩
      simp only [inRun] at hr
      obtain ⟨_, k, hk1, hx, hy, _⟩ := hr
      obtain ⟨dr, dc⟩ := d
      exact ray_ne_origin hd r c hk1
        ⟨hx.symm.trans hi0, hy.symm.trans hj0⟩
    rw [(hchar _ _).2 hnone, place_cells b hin pl, if_pos ⟨hi0, hj0⟩]
  · intro i j hne
    constructor
    · intro hft
      simp only [flipTarget] at hft
      rw [hmm]
      exact (hchar i j).1 hft
    · intro hnft
      simp only [flipTarget] at hnft
      rw [hmm]
      show (dirs.foldl (Board.flipStep r c pl) (b.place r c pl)).cells i j =
        b.cells i j
      rw [(hchar i j).2 hnft, place_cells b hin pl, if_neg hne]

/-- C1 witness: Black at (2,3) is a valid opening on the fresh board
and make_move reports success. -/
theorem make_move_spec_witness :
    Board.new.is_valid_move 2 3 Player.Black = true ∧
    (Board.new.make_move 2 3 Player.Black).2 = true :=
  ⟨by decide, (make_move_spec Board.new 2 3 Player.Black (by decide)).1⟩

theorem occCount_le (b : Board) : occCount b ≤ 64 := by
  unfold occCount
  calc ∑ p : Fin 8 × Fin 8, (if b.cells p.1 p.2 = Cell.Empty then 0 else 1)
      ≤ ∑ _p : Fin 8 × Fin 8, 1 :=
        Finset.sum_le_sum (fun p _ => by split <;> omega)
    _ = 64 := by simp

theorem occCount_succ (bA bB : Board) (p0 : Fin 8 × Fin 8)
    (h0A : bA.cells p0.1 p0.2 = Cell.Empty)
    (h0B : bB.cells p0.1 p0.2 ≠ Cell.Empty)
    (hrest : ∀ p : Fin 8 × Fin 8, p ≠ p0 →
      (bB.cells p.1 p.2 = Cell.Empty ↔ bA.cells p.1 p.2 = Cell.Empty)) :
    occCount bB = occCount bA + 1 := by
  unfold occCount
  rw [← Finset.add_sum_erase _ _ (Finset.mem_univ p0),
    ← Finset.add_sum_erase _ _ (Finset.mem_univ p0)]
  rw [if_pos h0A, if_neg h0B]
  have hsum : ∑ p ∈ Finset.univ.erase p0,
        (if bB.cells p.1 p.2 = Cell.Empty then 0 else 1) =
      ∑ p ∈ Finset.univ.erase p0,
        (if bA.cells p.1 p.2 = Cell.Empty then 0 else 1) := by
    apply Finset.sum_congr rfl
    intro p hp
    have hne := Finset.ne_of_mem_erase hp
    by_cases hB : bB.cells p.1 p.2 = Cell.Empty
    · rw [if_pos hB, if_pos ((hrest p hne).mp hB)]
    · rw [if_neg hB, if_neg (fun hA => hB ((hrest p hne).mpr hA))]
  rw [hsum]
  omega

/-- C5: every successful make_move increases the number of Occupied
cells by exactly 1 (the flip walks only recolor already-Occupied
cells), and the occupancy of any board never exceeds 64. -/
theorem occupancy_spec (b : Board) (r c : Int) (pl : Player)
    (h : (b.make_move r c pl).2 = true) :
    occCount (b.make_move r c pl).1 = occCount b + 1 ∧
    ∀ b2 : Board, occCount b2 ≤ 64 := by
  have hv : b.is_valid_move r c pl = true := by
    cases hx : b.is_valid_move r c pl with
    | false =>
      rw [invalid_make_move b r c pl hx] at h
      simp at h
    | true => rfl
  have hin := valid_imp_inRange b r c pl hv
  have hemp := valid_get_empty b r c pl hv
  have hmm := make_move_eq b r c pl hv
  have hchar := foldl_flip_char (b.place r c pl) r c pl dirs (b.place r c pl)
    (fun _ hd => hd) dirs_nodup (fun _ _ _ _ => rfl)
  refine ⟨?_, fun b2 => occCount_le b2⟩
  rw [hmm]
  show occCount (dirs.foldl (Board.flipStep r c pl) (b.place r c pl)) =
    occCount b + 1
  have hi0 : ((⟨r.toNat, by omega⟩ : Fin 8) : Int) = r :=
    Int.toNat_of_nonneg hin.1
  have hj0 : ((⟨c.toNat, by omega⟩ : Fin 8) : Int) = c :=
    Int.toNat_of_nonneg hin.2.2.1
  apply occCount_succ b _ (⟨r.toNat, by omega⟩, ⟨c.toNat, by omega⟩)
  · rw [← get_as_cells b hin]
    exact hemp
  · have hnone : ¬ ∃ d ∈ dirs, inRun (b.place r c pl) r c pl d
        ⟨r.toNat, by omega⟩ ⟨c.toNat, by omega⟩ := by
      rintro ⟨d, hd, hr⟩
      simp only [inRun] at hr
      obtain ⟨_, k, hk1, hx, hy, _⟩ := hr
      obtain ⟨dr, dc⟩ := d
      exact ray_ne_origin hd r c hk1
        ⟨hx.symm.trans hi0, hy.symm.trans hj0⟩
    rw [(hchar _ _).2 hnone, place_cells b hin pl, if_pos ⟨hi0, hj0⟩]
    simp
  · intro p hp
    by_cases hft : ∃ d ∈ dirs, inRun (b.place r c pl) r c pl d p.1 p.2
    · have hBcell := (hchar p.1 p.2).1 hft
      obtain ⟨d, hd, hr⟩ := hft
      simp only [inRun] at hr
      obtain ⟨_, k, hk1, hx, hy, hkrun⟩ := hr
      obtain ⟨dr, dc⟩ := d
      have hb1get := hkrun k hk1 (le_refl k)
      rw [← hx, ← hy, get_int_coe] at hb1get
      have hnorg : ¬((p.1 : Int) = r ∧ (p.2 : Int) = c) := by
        rintro ⟨hxx, hyy⟩
        exact ray_ne_origin hd r c hk1
          ⟨hx.symm.trans hxx, hy.symm.trans hyy⟩
      have hA : b.cells p.1 p.2 = Cell.Occupied pl.opponent := by
        have hpc := place_cells b hin pl p.1 p.2
        rw [if_neg hnorg] at hpc
        rw [← hpc]
        exact hb1get
      rw [hBcell, hA]
      simp
    · have hBcell := (hchar p.1 p.2).2 hft
      have hnorg : ¬((p.1 : Int) = r ∧ (p.2 : Int) = c) := by
        rintro ⟨hxx, hyy⟩
        apply hp
        have h1 : p.1 = ⟨r.toNat, by omega⟩ :=
          Fin.ext (show p.1.val = r.toNat by omega)
        have h2 : p.2 = ⟨c.toNat, by omega⟩ :=
          Fin.ext (show p.2.val = c.toNat by omega)
        exact Prod.ext h1 h2
      rw [hBcell, place_cells b hin pl, if_neg hnorg]

/-- C5 witness: the opening move Black (2,3) raises the occupancy of
the fresh board from 4 to 5. -/
theorem occupancy_spec_witness :
    (Board.new.make_move 2 3 Player.Black).2 = true ∧
    occCount (Board.new.make_move 2 3 Player.Black).1 =
      occCount Board.new + 1 :=
  ⟨by decide, (occupancy_spec Board.new 2 3 Player.Black (by decide)).1⟩

theorem Board.ext_cells {bA bB : Board}
    (h : ∀ i j : Fin 8, bA.cells i j = bB.cells i j) : bA = bB := by
  cases bA with
  | mk fA =>
    cases bB with
    | mk fB =>
      congr 1
      funext i j
      exact h i j

/-- C6: for a valid move the sequential evaluate-then-flip loop is
order independent — any permutation of the 8 directions produces the
same final grid — because the capture test a direction sees mid-loop
equals the test on the freshly placed board, which in turn equals the
test on the pre-move board (the walks never read the origin). -/
theorem flip_order_independent (b : Board) (r c : Int) (pl : Player)
    (h : b.is_valid_move r c pl = true) :
    (∀ L : List (Int × Int), L.Perm dirs →
      L.foldl (Board.flipStep r c pl) (b.place r c pl) =
        dirs.foldl (Board.flipStep r c pl) (b.place r c pl)) ∧
    (∀ (L1 : List (Int × Int)) (d : Int × Int) (L2 : List (Int × Int)),
      dirs = L1 ++ d :: L2 →
      (L1.foldl (Board.flipStep r c pl) (b.place r c pl)).can_flip_in_direction
          r c d.1 d.2 pl =
        (b.place r c pl).can_flip_in_direction r c d.1 d.2 pl) ∧
    (∀ d ∈ dirs, (b.place r c pl).can_flip_in_direction r c d.1 d.2 pl =
      b.can_flip_in_direction r c d.1 d.2 pl) ∧
    (b.make_move r c pl).1 =
      dirs.foldl (Board.flipStep r c pl) (b.place r c pl) := by
  have hin := valid_imp_inRange b r c pl h
  have hmm := make_move_eq b r c pl h
  have hcharDirs := foldl_flip_char (b.place r c pl) r c pl dirs
    (b.place r c pl) (fun _ hd => hd) dirs_nodup (fun _ _ _ _ => rfl)
  refine ⟨?_, ?_, ?_, ?_⟩
  · intro L hperm
    have hcharL := foldl_flip_char (b.place r c pl) r c pl L
      (b.place r c pl) (fun d hd => hperm.mem_iff.mp hd)
      (hperm.nodup_iff.mpr dirs_nodup) (fun _ _ _ _ => rfl)
    apply Board.ext_cells
    intro i j
    by_cases hft : ∃ d ∈ dirs, inRun (b.place r c pl) r c pl d i j
    · obtain ⟨d, hd, hr⟩ := hft
      rw [(hcharL i j).1 ⟨d, hperm.mem_iff.mpr hd, hr⟩,
        (hcharDirs i j).1 ⟨d, hd, hr⟩]
    · have hftL : ¬ ∃ d ∈ L, inRun (b.place r c pl) r c pl d i j := by
        rintro ⟨d, hd, hr⟩
        exact hft ⟨d, hperm.mem_iff.mp hd, hr⟩
      rw [(hcharL i j).2 hftL, (hcharDirs i j).2 hft]
  · intro L1 d L2 heq
    have hndAll : (L1 ++ d :: L2).Nodup := heq ▸ dirs_nodup
    have hnd1 : L1.Nodup := (List.nodup_append.mp hndAll).1
    have hdis := (List.nodup_append.mp hndAll).2.2
    have hdnotL1 : d ∉ L1 := fun hdm =>
      hdis hdm (List.mem_cons_self _ _)
    have hsub1 : ∀ x ∈ L1, x ∈ dirs := fun x hx =>
      heq ▸ List.mem_append_left _ hx
    have hd_dirs : d ∈ dirs := heq ▸
      List.mem_append_right _ (List.mem_cons_self _ _)
    have hcharL1 := foldl_flip_char (b.place r c pl) r c pl L1
      (b.place r c pl) hsub1 hnd1 (fun _ _ _ _ => rfl)
    obtain ⟨dr, dc⟩ := d
    apply can_flip_congr
    intro s hs
    apply get_eq_of_cells_eq
    intro i j hi hj
    apply (hcharL1 i j).2
    rintro ⟨d', hd', hr⟩
    simp only [inRun] at hr
    obtain ⟨_, k, hk1, hx, hy, _⟩ := hr
    obtain ⟨dr', dc'⟩ := d'
    have hne' : (dr', dc') ≠ (dr, dc) := fun hcontra =>
      hdnotL1 (hcontra ▸ hd')
    exact rays_disjoint (hsub1 _ hd') hd_dirs hne' r c hk1 hs
      ⟨hx.symm.trans hi, hy.symm.trans hj⟩
  · intro d hd
    obtain ⟨dr, dc⟩ := d
    apply can_flip_congr
    intro s hs
    exact place_get_ne b hin pl (ray_ne_origin hd r c hs)
  · exact congrArg Prod.fst hmm

/-- C6 witness: the valid opening Black (2,3) on the fresh board, with
the final grid of make_move equal to the direction fold over the
placed board. -/
theorem flip_order_independent_witness :
    Board.new.is_valid_move 2 3 Player.Black = true ∧
    (Board.new.make_move 2 3 Player.Black).1 =
      dirs.foldl (Board.flipStep 2 3 Player.Black)
        (Board.new.place 2 3 Player.Black) :=
  ⟨by decide, (flip_order_independent Board.new 2 3 Player.Black
    (by decide)).2.2.2⟩

end Osero
